import Mathlib

/-!
Verification of the CSV ingestion-and-normalization pipeline and the
monthly aggregation engine of the Capture-Prices dashboard (`App.py`),
as a shallow embedding in Lean 4.

Rows are modelled as records with an optional timestamp and an optional
numeric value (missing numeric cells are `none`, matching NaN semantics
of the source's numeric coercion); rationals stand for the floating
point values of the source program.
-/

namespace CapturePrices

/-- Calendar timestamp (naive, no offset), as year/month/day/hour/minute. -/
structure DT where
  year : Nat
  month : Nat
  day : Nat
  hour : Nat
  minute : Nat
deriving DecidableEq, Repr

/-- Row of the table before timestamp validation: the designated timestamp
column already parsed (`none` when parsing failed for that row, i.e. NaT),
and the selected energy column already coerced to numeric (`none` = NaN). -/
structure RawRow where
  ts : Option DT
  value : Option ℚ
deriving DecidableEq, Repr

/-- Row of the cleaned table: a valid timestamp, the derived `Month` key,
and the numeric value of the selected column. -/
structure CleanRow where
  ts : DT
  month : DT
  value : Option ℚ
deriving DecidableEq, Repr

/-- Month key of a timestamp: `dt.to_period("M").dt.to_timestamp()` in the
source, i.e. midnight of the first day of the calendar month. -/
def monthKey (d : DT) : DT :=
  ⟨d.year, d.month, 1, 0, 0⟩

/-- Cleaning step of the source: `df = df[df[date_col].notna()]` followed by
`df["Month"] = df[date_col].dt.to_period("M").dt.to_timestamp()` — rows with
an invalid timestamp are dropped, the rest get their `Month` key. -/
def cleanTable (rows : List RawRow) : List CleanRow :=
  rows.filterMap (fun r => r.ts.map (fun t => ⟨t, monthKey t, r.value⟩))

/-- Rows of the table falling in the group of month `m`
(`df.groupby("Month")` membership). -/
def monthGroup (t : List CleanRow) (m : DT) : List CleanRow :=
  t.filter (fun r => decide (r.month = m))

/-- Sum of the selected column over the group of month `m`; NaN values are
skipped (contribute nothing), matching pandas `groupby(...).sum()`. -/
def monthSum (t : List CleanRow) (m : DT) : ℚ :=
  ((monthGroup t m).map (fun r => r.value.getD 0)).sum

/-- Monthly total energy in GWh, from the source:
`monthly_gwh = df.groupby("Month", sort=True)[selected_tech].sum() / 4000.0`.
The series has an entry exactly for the months present in the table. -/
def monthly_gwh (t : List CleanRow) (m : DT) : Option ℚ :=
  if monthGroup t m = [] then none else some (monthSum t m / 4000)

/-- Synthetic table of the round-trip property: a full 30-day month
(June 2025) with exactly four 15-minute rows per hour at a constant
100 MW. -/
def syntheticMonth : List RawRow :=
  (List.range 30).flatMap (fun d =>
    (List.range 24).flatMap (fun h =>
      ([0, 15, 30, 45] : List Nat).map (fun mi =>
        ⟨some ⟨2025, 6, d + 1, h, mi⟩, some 100⟩)))

/-- Scaling every value of the selected energy column by a constant `k`
(missing values stay missing, as NaN · k = NaN). -/
def scaleValues (t : List CleanRow) (k : ℚ) : List CleanRow :=
  t.map (fun r => { r with value := r.value.map (fun v => k * v) })

/-- Timestamp together with its possible UTC offset (in minutes); `wall` is
the local wall-clock instant on a linear time scale, `offset = none` means a
timezone-naive value. -/
structure TzInstant where
  wall : Int
  offset : Option Int
deriving DecidableEq, Repr

/-- Effect of `Series.dt.tz_localize(None)` on a timezone-aware series: the
offset marker is removed and the local wall-clock time is kept. -/
def dropOffsetKeepWall (t : TzInstant) : TzInstant :=
  ⟨t.wall, none⟩

/-- Primary normalization branch of the source
(`df[date_col].dt.tz_localize(None)`), which succeeds on timezone-aware
datetime series. -/
def tzLocalizeNone (s : List TzInstant) : Option (List TzInstant) :=
  some (s.map dropOffsetKeepWall)

/-- Fallback branch of the source
(`df[date_col].dt.tz_convert("UTC").dt.tz_localize(None)`): shift the wall
clock to UTC by subtracting the offset, then drop the marker. -/
def tzConvertUtcThenDrop (s : List TzInstant) : List TzInstant :=
  s.map (fun t => ⟨t.wall - t.offset.getD 0, none⟩)

/-- Timezone normalization of the source (after `try_parse_datetime`): only
timezone-aware series are touched; the primary branch removes the marker
keeping local time, and the UTC conversion runs only if that branch fails. -/
def normalize_timezone (s : List TzInstant) : List TzInstant :=
  if s.any (fun t => t.offset.isSome) then
    match tzLocalizeNone s with
    | some r => r
    | none => tzConvertUtcThenDrop s
  else s

/-- Normalization as worded by the specification (refinement target, for
comparison only): convert offset-carrying instants to UTC, then drop the
offset marker; naive series pass through unchanged. -/
def spec_normalize_timezone (s : List TzInstant) : List TzInstant :=
  if s.any (fun t => t.offset.isSome) then tzConvertUtcThenDrop s else s

/-- Login gate of the source:
`if secret_password and (password == secret_password)` — Python truthiness
makes an empty secret falsy, so the comparison is guarded by the secret
being non-empty. -/
def login_check (secret password : String) : Bool :=
  !(secret == "") && (password == secret)

/-- File discovery of the source's `load_data`: `paths = sorted(glob.glob
("Germany *.csv"))`; if empty, fall back to the single file
`"Germany 2025.csv"` when it exists, otherwise raise `FileNotFoundError`.
`globResult` is the (already sorted) glob result and `files` the directory
contents consulted by `os.path.exists`. -/
def load_data_paths (globResult files : List String) : Except String (List String) :=
  if globResult.isEmpty then
    if "Germany 2025.csv" ∈ files then Except.ok ["Germany 2025.csv"]
    else Except.error "No matching files found."
  else Except.ok globResult

/-- Whitespace characters recognised by `str.strip` and the `\s` class of
the units pattern (ASCII model). -/
def isWs (c : Char) : Bool :=
  c = ' ' || c = '\t' || c = '\n' || c = '\r' || c = '\x0b' || c = '\x0c'

/-- Strip of leading and trailing whitespace (`str.strip()`), on the
character list of a string. -/
def trimChars (cs : List Char) : List Char :=
  List.rdropWhile isWs (List.dropWhile isWs cs)

/-- Byte-order mark U+FEFF. -/
def bomChar : Char := '\uFEFF'

/-- Zero-width space U+200B. -/
def zwspChar : Char := '\u200B'

/-- Removal of every byte-order mark and zero-width space of a column
name. -/
def stripSpecial (cs : List Char) : List Char :=
  cs.filter (fun ch => !(ch == bomChar || ch == zwspChar))

/-- Modelled from the spec: column-name normalization is absent from
`src/App.py` (this variant only strips the file-level BOM via the
`utf-8-sig` encoding); the spec's `normalize_columns` strips `U+FEFF`,
`U+200B` and surrounding whitespace from a column name. -/
def normalize_name (cs : List Char) : List Char :=
  trimChars (stripSpecial cs)

/-- Modelled from the spec: `normalize_columns` applies the per-name
normalization to every column name of the table. -/
def normalize_columns (cols : List (List Char)) : List (List Char) :=
  cols.map normalize_name

/-- Consumption of the literal pattern `pat` at the front of `s`, returning
the remainder on success. -/
def consume : List Char → List Char → Option (List Char)
  | [], rest => some rest
  | _ :: _, [] => none
  | p :: ps, c :: cs => if c = p then consume ps cs else none

/-- Match of the units regex `power\s*\(mw\)|price\s*\(` at the start of an
(already lower-cased) character list. -/
def unitsAt (s : List Char) : Bool :=
  (match consume ['p', 'o', 'w', 'e', 'r'] s with
    | some r => (consume ['(', 'm', 'w', ')'] (r.dropWhile isWs)).isSome
    | none => false) ||
  (match consume ['p', 'r', 'i', 'c', 'e'] s with
    | some r => (consume ['('] (r.dropWhile isWs)).isSome
    | none => false)

/-- Search of the units pattern anywhere in a character list
(`Series.str.contains(..., regex=True)` semantics). -/
def containsUnitsPat : List Char → Bool
  | [] => false
  | c :: cs => unitsAt (c :: cs) || containsUnitsPat cs

/-- Test of one cell of the first data row:
`first_row_str.str.lower().str.contains(r"power\s*\(mw\)|price\s*\(")`. -/
def isUnitsCell (s : String) : Bool :=
  containsUnitsPat (s.data.map Char.toLower)

/-- Fraction of the first data row's cells matching the units pattern
(`.mean()` of the boolean series); the empty row gives `0/0 = 0`, on which
the `> 0.3` test is false exactly as `NaN > 0.3` is in the source. -/
def unitsFraction (cells : List String) : ℚ :=
  (cells.countP isUnitsCell : ℚ) / (cells.length : ℚ)

/-- Units-row removal of `load_data`: if more than 30% of the first data
row's cells look like unit labels, drop that row (`df = df.iloc[1:]`). -/
def dropUnitsRow (rows : List (List String)) : List (List String) :=
  match rows with
  | [] => []
  | r :: rest => if (3 : ℚ) / 10 < unitsFraction r then rest else r :: rest

/-- Cell cleanup of `try_parse_datetime`:
`.str.strip()`, removal of U+200B, then `"" -> NA`. -/
def clean (s : String) : Option String :=
  let u := (trimChars s.data).filter (fun c => !(c == zwspChar))
  if u = [] then none else some (String.mk u)

/-- Non-missing fraction of a parse attempt (`.notna().mean()`); the empty
series gives `0/0 = 0`, on which the `> 0.8` test is false exactly as
`NaN > 0.8` is in the source. -/
def rate {α : Type} (xs : List (Option α)) : ℚ :=
  (xs.countP Option.isSome : ℚ) / (xs.length : ℚ)

/-- Application of one parsing strategy to every (cleaned) cell of the
column. -/
def applyStrategy {α : Type} (f : String → Option α) (xs : List String) :
    List (Option α) :=
  xs.map (fun x => (clean x).bind f)

/-- Sample values quoted by the parse error
(`series.dropna().astype(str).head(5).tolist()`). -/
def sampleValues (xs : List String) : List String :=
  xs.take 5

/-- Robust timestamp parsing of the source (`try_parse_datetime`): try, in
order, the generic flexible parse `iso`, the explicit format strings
`fmts`, then — only when the column is numeric-like — epoch milliseconds
and epoch seconds; return the first attempt whose non-missing fraction
exceeds 0.8, and raise an error quoting sample values otherwise. The
individual format and epoch interpreters are parameters of the embedding;
the control flow is the source's. -/
def tryParseDatetime {α : Type} (iso : String → Option α)
    (fmts : List (String → Option α)) (toNum : String → Option Int)
    (fromMs fromS : Int → Option α) (xs : List String) :
    Except (List String) (List (Option α)) :=
  if (4 : ℚ) / 5 < rate (applyStrategy iso xs) then
    Except.ok (applyStrategy iso xs)
  else
    match fmts.find? (fun f => decide ((4 : ℚ) / 5 < rate (applyStrategy f xs))) with
    | some f => Except.ok (applyStrategy f xs)
    | none =>
      if (4 : ℚ) / 5 < rate (applyStrategy toNum xs) then
        if (4 : ℚ) / 5 < rate ((applyStrategy toNum xs).map (fun o => o.bind fromMs)) then
          Except.ok ((applyStrategy toNum xs).map (fun o => o.bind fromMs))
        else if (4 : ℚ) / 5 < rate ((applyStrategy toNum xs).map (fun o => o.bind fromS)) then
          Except.ok ((applyStrategy toNum xs).map (fun o => o.bind fromS))
        else Except.error (sampleValues xs)
      else Except.error (sampleValues xs)

/-- Ordered list of the outputs of every parsing strategy: generic parse,
each explicit format, epoch milliseconds, epoch seconds. -/
def strategyOutputs {α : Type} (iso : String → Option α)
    (fmts : List (String → Option α)) (toNum : String → Option Int)
    (fromMs fromS : Int → Option α) (xs : List String) :
    List (List (Option α)) :=
  applyStrategy iso xs :: (fmts.map (fun f => applyStrategy f xs) ++
    [(applyStrategy toNum xs).map (fun o => o.bind fromMs),
     (applyStrategy toNum xs).map (fun o => o.bind fromS)])

/-- Modelled from the spec: the capture-price value of one month. The
monthly capture-price computation is absent from `src/App.py` (this
variant computes only the energy aggregates); per the spec it is
`(capture_value_meur / energy_gwh) × 1000`, with a zero or missing (NaN)
energy denominator — and the NaN result of a missing numerator — replaced
by 0 rather than NaN or infinity. -/
def capPriceVal (ev cv : Option ℚ) : ℚ :=
  match ev, cv with
  | none, _ => 0
  | some e, cv => if e = 0 then 0 else cv.getD 0 / e * 1000

/-- Modelled from the spec: the monthly capture-price series is defined on
the intersection of the month indices of the energy series and the
capture-value series (entries are `(month, value)` pairs whose `value`
may be NaN, i.e. `none`), with `capPriceVal` as the per-month value. -/
def monthly_capture_price (e c : List (DT × Option ℚ)) : List (DT × ℚ) :=
  e.filterMap (fun p =>
    (c.find? (fun q => decide (q.1 = p.1))).map (fun q => (p.1, capPriceVal p.2 q.2)))

/-! ## Theorems -/

theorem monthGroup_scaleValues (t : List CleanRow) (k : ℚ) (m : DT) :
    monthGroup (scaleValues t k) m = scaleValues (monthGroup t m) k := by
  simp only [monthGroup, scaleValues, List.filter_map]
  rfl

theorem monthSum_scaleValues (t : List CleanRow) (k : ℚ) (m : DT) :
    monthSum (scaleValues t k) m = k * monthSum t m := by
  rw [monthSum, monthGroup_scaleValues, monthSum]
  induction monthGroup t m with
  | nil => simp [scaleValues]
  | cons r rs ih =>
    simp only [scaleValues, List.map_cons, List.sum_cons] at ih ⊢
    rw [ih, mul_add]
    congr 1
    cases r.value <;> simp

theorem every_synthetic_row (r : CleanRow) (hr : r ∈ cleanTable syntheticMonth) :
    r.month = ⟨2025, 6, 1, 0, 0⟩ ∧ r.value = some 100 := by
  simp only [cleanTable, syntheticMonth, List.mem_filterMap, List.mem_flatMap,
    List.mem_map, List.mem_range] at hr
  obtain ⟨raw, ⟨d, _, h, _, mi, _, hraw⟩, hmap⟩ := hr
  subst hraw
  simp only [Option.map_some'] at hmap
  cases hmap
  exact ⟨rfl, rfl⟩

theorem synthetic_ts_valid :
    ∀ r ∈ syntheticMonth, r.ts.isSome = true := by
  intro r hr
  simp only [syntheticMonth, List.mem_flatMap, List.mem_map, List.mem_range] at hr
  obtain ⟨d, _, h, _, mi, _, hraw⟩ := hr
  subst hraw
  rfl

theorem cleanTable_length_of_valid :
    ∀ rows : List RawRow, (∀ r ∈ rows, r.ts.isSome = true) →
      (cleanTable rows).length = rows.length := by
  intro rows
  induction rows with
  | nil => intro _; rfl
  | cons r rs ih =>
    intro h
    have hr := h r (List.mem_cons_self r rs)
    rw [cleanTable, List.filterMap_cons]
    cases hts : r.ts with
    | none => rw [hts] at hr; simp at hr
    | some t =>
      simp only [hts, Option.map_some', List.length_cons]
      rw [show List.filterMap (fun r : RawRow =>
          r.ts.map (fun t => (⟨t, monthKey t, r.value⟩ : CleanRow))) rs = cleanTable rs from rfl,
        ih (fun x hx => h x (List.mem_cons_of_mem r hx))]

theorem synthetic_length : syntheticMonth.length = 2880 := by
  simp [syntheticMonth, List.length_flatMap, Function.comp_def, List.map_const',
    List.sum_replicate]

theorem length_clean_synthetic : (cleanTable syntheticMonth).length = 2880 := by
  rw [cleanTable_length_of_valid syntheticMonth synthetic_ts_valid, synthetic_length]

theorem sum_values_of_const (c : ℚ) :
    ∀ t : List CleanRow, (∀ r ∈ t, r.value = some c) →
      (t.map (fun r => r.value.getD 0)).sum = t.length * c := by
  intro t
  induction t with
  | nil => simp
  | cons r rs ih =>
    intro h
    have hr := h r (List.mem_cons_self r rs)
    simp only [List.map_cons, List.sum_cons, hr, Option.getD_some, List.length_cons]
    rw [ih (fun x hx => h x (List.mem_cons_of_mem r hx))]
    push_cast
    ring

theorem clean_synthetic_nonempty : cleanTable syntheticMonth ≠ [] := by
  intro h
  have := length_clean_synthetic
  rw [h] at this
  simp at this

/-- C1. For every cleaned table and selected energy column, the monthly
energy series groups rows by Month, sums the column per group and divides
by 4000; in particular, on a table with exactly four 15-minute rows per
hour at a constant 100 MW over a full 30-day month (2880 rows), the value
for that month is 72 GWh. -/
theorem monthly_gwh_roundtrip :
    monthly_gwh (cleanTable syntheticMonth) ⟨2025, 6, 1, 0, 0⟩ = some 72 ∧
    (cleanTable syntheticMonth).length = 2880 := by
  have hgrp : monthGroup (cleanTable syntheticMonth) ⟨2025, 6, 1, 0, 0⟩ =
      cleanTable syntheticMonth := by
    rw [monthGroup, List.filter_eq_self]
    intro r hr
    exact decide_eq_true (every_synthetic_row r hr).1
  have hsum : monthSum (cleanTable syntheticMonth) ⟨2025, 6, 1, 0, 0⟩ = 288000 := by
    rw [monthSum, hgrp,
      sum_values_of_const 100 _ (fun r hr => (every_synthetic_row r hr).2),
      length_clean_synthetic]
    norm_num
  refine ⟨?_, length_clean_synthetic⟩
  rw [monthly_gwh, hgrp, if_neg clean_synthetic_nonempty, hsum]
  norm_num

/-- C8. The monthly energy aggregation is linear in the energy column:
scaling every value of the selected column by a constant `k` scales every
month of the output series by `k`. -/
theorem monthly_gwh_linear (t : List CleanRow) (k : ℚ) (m : DT) :
    monthly_gwh (scaleValues t k) m = (monthly_gwh t m).map (fun v => k * v) := by
  rw [monthly_gwh, monthly_gwh, monthGroup_scaleValues]
  by_cases h : monthGroup t m = []
  · rw [h]
    simp [scaleValues]
  · rw [if_neg (by simp [scaleValues, h]), if_neg h, monthSum_scaleValues]
    simp [mul_div_assoc]

/-- C6. Every row of the cleaned table has a valid (non-missing) timestamp —
exactly the rows whose timestamp parsed survive — and carries a `Month` key
equal to midnight of the first day of the calendar month of its timestamp. -/
theorem cleanTable_month_invariant (rows : List RawRow) :
    (cleanTable rows).length = rows.countP (fun r => r.ts.isSome) ∧
    ∀ r ∈ cleanTable rows,
      r.month = monthKey r.ts ∧ ∃ raw ∈ rows, raw.ts = some r.ts := by
  constructor
  · induction rows with
    | nil => rfl
    | cons x xs ih =>
      rw [cleanTable, List.filterMap_cons, List.countP_cons]
      cases hts : x.ts with
      | none => simpa [hts, cleanTable] using ih
      | some t =>
        simp only [hts, Option.map_some', Option.isSome_some, List.length_cons]
        rw [show List.filterMap (fun r : RawRow =>
            r.ts.map (fun t => (⟨t, monthKey t, r.value⟩ : CleanRow))) xs = cleanTable xs
          from rfl, ih]
        simp
  · intro r hr
    simp only [cleanTable, List.mem_filterMap] at hr
    obtain ⟨raw, hmem, hmap⟩ := hr
    rw [Option.map_eq_some'] at hmap
    obtain ⟨t, hts, hval⟩ := hmap
    subst hval
    exact ⟨rfl, raw, hmem, hts⟩

/-- C2, counterexample. On the series containing the single instant
`00:15+01:00` (wall clock 15 minutes past epoch, offset 60 minutes), the
code keeps the wall clock `15` while a UTC conversion would give `-45`:
the code does not convert to UTC before dropping the offset marker. -/
theorem normalize_timezone_not_utc :
    normalize_timezone [⟨15, some 60⟩] ≠ spec_normalize_timezone [⟨15, some 60⟩] := by
  decide

/-- C2, amended. Timezone normalization drops the offset marker while
preserving the local wall-clock time of every instant (UTC conversion is
only a dead fallback); series that are already naive pass through
unchanged. -/
theorem normalize_timezone_keeps_wall (s : List TzInstant) :
    normalize_timezone s =
      if s.any (fun t => t.offset.isSome) then s.map dropOffsetKeepWall else s := by
  rw [normalize_timezone]
  by_cases h : s.any (fun t => t.offset.isSome)
  · rw [if_pos h, if_pos h]
    rfl
  · rw [if_neg h, if_neg h]

/-- C9. With an absent (empty) secret the login check fails for every
submitted password, and it succeeds exactly when the secret is non-empty
and the submitted password equals it. -/
theorem login_check_iff (secret password : String) :
    login_check secret password = true ↔ secret ≠ "" ∧ password = secret := by
  rw [login_check]
  constructor
  · intro h
    rcases Bool.and_eq_true_iff.mp h with ⟨h1, h2⟩
    refine ⟨?_, ?_⟩
    · intro he
      rw [he] at h1
      simp at h1
    · exact eq_of_beq h2
  · rintro ⟨h1, h2⟩
    subst h2
    simp [h1]

/-- C10. `load_data` raises a file-not-found error exactly when the glob
matched no file and the fallback file is also absent; when the glob is
empty but the fallback file exists, that single file is loaded. -/
theorem load_data_paths_error_iff (globResult files : List String) :
    ((∃ e, load_data_paths globResult files = Except.error e) ↔
      globResult = [] ∧ "Germany 2025.csv" ∉ files) ∧
    load_data_paths [] ("Germany 2025.csv" :: files) =
      Except.ok ["Germany 2025.csv"] := by
  constructor
  · rw [load_data_paths]
    by_cases hg : globResult.isEmpty
    · rw [if_pos hg]
      by_cases hf : "Germany 2025.csv" ∈ files
      · simp [if_pos hf, List.isEmpty_iff.mp hg, hf]
      · simp [if_neg hf, List.isEmpty_iff.mp hg, hf]
    · simp only [if_neg hg]
      constructor
      · rintro ⟨e, he⟩
        exact absurd he (by simp)
      · rintro ⟨h1, _⟩
        exact absurd (List.isEmpty_iff.mpr h1) hg
  · rw [load_data_paths]
    simp

/-- C4. The first data row is removed from the loaded table exactly when
the fraction of its cells whose lower-cased text matches the units pattern
exceeds 0.3, and retained exactly when the fraction is at or below 0.3. -/
theorem dropUnitsRow_threshold (r : List String) (rest : List (List String)) :
    ((3 : ℚ) / 10 < unitsFraction r ↔ dropUnitsRow (r :: rest) = rest) ∧
    (unitsFraction r ≤ 3 / 10 ↔ dropUnitsRow (r :: rest) = r :: rest) := by
  by_cases h : (3 : ℚ) / 10 < unitsFraction r
  · have hd : dropUnitsRow (r :: rest) = rest := by
      show (if (3 : ℚ) / 10 < unitsFraction r then rest else r :: rest) = rest
      rw [if_pos h]
    refine ⟨⟨fun _ => hd, fun _ => h⟩,
      ⟨fun hle => absurd h (not_lt.mpr hle), fun heq => ?_⟩⟩
    rw [hd] at heq
    exact absurd heq.symm (List.cons_ne_self r rest)
  · have hle : unitsFraction r ≤ 3 / 10 := not_lt.mp h
    have hd : dropUnitsRow (r :: rest) = r :: rest := by
      show (if (3 : ℚ) / 10 < unitsFraction r then rest else r :: rest) = r :: rest
      rw [if_neg h]
    refine ⟨⟨fun hlt => absurd hlt h, fun heq => ?_⟩, ⟨fun _ => hd, fun _ => hle⟩⟩
    rw [hd] at heq
    exact absurd heq (List.cons_ne_self r rest)

theorem dropWhile_trimChars (cs : List Char) :
    List.dropWhile isWs (trimChars cs) = trimChars cs := by
  rcases hT : trimChars cs with _ | ⟨c, rest⟩
  · rfl
  · have hpre : trimChars cs <+: List.dropWhile isWs cs := List.rdropWhile_prefix _ _
    rw [hT] at hpre
    obtain ⟨t, ht⟩ := hpre
    have h1 := List.head?_dropWhile_not isWs cs
    rw [← ht] at h1
    simp only [List.cons_append, List.head?_cons] at h1
    exact List.dropWhile_cons_of_neg (by simp [h1])

theorem trimChars_idem (cs : List Char) :
    trimChars (trimChars cs) = trimChars cs := by
  show List.rdropWhile isWs (List.dropWhile isWs (trimChars cs)) = trimChars cs
  rw [dropWhile_trimChars, trimChars]
  exact List.rdropWhile_idempotent _ _

theorem trimChars_sublist (cs : List Char) : List.Sublist (trimChars cs) cs := by
  rw [trimChars]
  exact ((List.rdropWhile_prefix _ _).sublist).trans (List.dropWhile_sublist _)

theorem normalize_name_idem (cs : List Char) :
    normalize_name (normalize_name cs) = normalize_name cs := by
  show trimChars (stripSpecial (normalize_name cs)) = normalize_name cs
  have h2 : stripSpecial (normalize_name cs) = normalize_name cs := by
    rw [stripSpecial, List.filter_eq_self]
    intro a ha
    have ham : a ∈ stripSpecial cs := (trimChars_sublist _).subset ha
    exact (List.mem_filter.mp ham).2
  rw [h2]
  exact trimChars_idem (stripSpecial cs)

/-- C7. Column-name normalization strips the byte-order mark `U+FEFF`, the
zero-width space `U+200B` and surrounding whitespace from every column
name, and applying it twice yields output identical to applying it once. -/
theorem normalize_columns_idem (cols : List (List Char)) :
    normalize_columns (normalize_columns cols) = normalize_columns cols ∧
    ∀ nm ∈ normalize_columns cols, ∀ ch ∈ nm, ch ≠ bomChar ∧ ch ≠ zwspChar := by
  constructor
  · show (cols.map normalize_name).map normalize_name = cols.map normalize_name
    rw [List.map_map]
    apply List.map_congr_left
    intro a _
    exact normalize_name_idem a
  · intro nm hnm ch hch
    rw [normalize_columns, List.mem_map] at hnm
    obtain ⟨c, _, rfl⟩ := hnm
    have ham : ch ∈ stripSpecial c := (trimChars_sublist _).subset hch
    have hpred := (List.mem_filter.mp ham).2
    constructor
    · intro he
      subst he
      simp at hpred
    · intro he
      subst he
      simp at hpred

theorem rate_map_bind_le {α β : Type} (g : β → Option α) (l : List (Option β)) :
    rate (l.map (fun o => o.bind g)) ≤ rate l := by
  rw [rate, rate, List.length_map]
  rcases Nat.eq_zero_or_pos l.length with h0 | hpos
  · rw [h0]
    norm_num
  · have hc : (0 : ℚ) < (l.length : ℚ) := by exact_mod_cast hpos
    rw [div_le_div_iff_of_pos_right hc]
    have hcount : (l.map (fun o => o.bind g)).countP Option.isSome ≤
        l.countP Option.isSome := by
      rw [List.countP_map]
      apply List.countP_mono_left
      intro o _ ho
      cases o with
      | none => simp at ho
      | some b => rfl
    exact_mod_cast hcount

/-- C3. Timestamp parsing returns the output of the first strategy of the
ordered list (generic parse, explicit formats, epoch milliseconds, epoch
seconds) whose non-missing fraction exceeds 0.8, and raises an error
quoting sample values of the column exactly when every strategy's rate is
at or below 0.8 — it never returns a series with at most 80% valid
timestamps. -/
theorem tryParseDatetime_first_strategy {α : Type} (iso : String → Option α)
    (fmts : List (String → Option α)) (toNum : String → Option Int)
    (fromMs fromS : Int → Option α) (xs : List String) :
    tryParseDatetime iso fmts toNum fromMs fromS xs =
      match (strategyOutputs iso fmts toNum fromMs fromS xs).find?
          (fun ys => decide ((4 : ℚ) / 5 < rate ys)) with
      | some ys => Except.ok ys
      | none => Except.error (sampleValues xs) := by
  rw [tryParseDatetime, strategyOutputs]
  by_cases h1 : (4 : ℚ) / 5 < rate (applyStrategy iso xs)
  · rw [if_pos h1, List.find?_cons_of_pos _ (by simpa using h1)]
  · rw [if_neg h1, List.find?_cons_of_neg _ (by simpa using h1), List.find?_append,
      List.find?_map]
    simp only [Function.comp_def]
    cases hf : fmts.find? (fun f => decide ((4 : ℚ) / 5 < rate (applyStrategy f xs))) with
    | some f => simp [hf]
    | none =>
      simp only [hf, Option.map_none', Option.none_or]
      by_cases hnum : (4 : ℚ) / 5 < rate (applyStrategy toNum xs)
      · rw [if_pos hnum]
        by_cases hms : (4 : ℚ) / 5 <
            rate ((applyStrategy toNum xs).map (fun o => o.bind fromMs))
        · rw [if_pos hms, List.find?_cons_of_pos _ (by simpa using hms)]
        · rw [if_neg hms, List.find?_cons_of_neg _ (by simpa using hms)]
          by_cases hs : (4 : ℚ) / 5 <
              rate ((applyStrategy toNum xs).map (fun o => o.bind fromS))
          · rw [if_pos hs, List.find?_cons_of_pos _ (by simpa using hs)]
          · rw [if_neg hs, List.find?_cons_of_neg _ (by simpa using hs), List.find?_nil]
      · rw [if_neg hnum]
        have hms : ¬ (4 : ℚ) / 5 <
            rate ((applyStrategy toNum xs).map (fun o => o.bind fromMs)) :=
          fun hlt => hnum (lt_of_lt_of_le hlt (rate_map_bind_le fromMs _))
        have hs : ¬ (4 : ℚ) / 5 <
            rate ((applyStrategy toNum xs).map (fun o => o.bind fromS)) :=
          fun hlt => hnum (lt_of_lt_of_le hlt (rate_map_bind_le fromS _))
        rw [List.find?_cons_of_neg _ (by simpa using hms),
          List.find?_cons_of_neg _ (by simpa using hs), List.find?_nil]

/-- C5. The capture-price series is defined exactly on the intersection of
the month-index sets of the energy and capture-value series, its value is
`(capture_value / energy) × 1000` per month, and a zero or missing energy
denominator yields the value 0 — never NaN, infinity or an error (the
output value type contains no NaN at all). -/
theorem capture_price_intersection (e c : List (DT × Option ℚ)) :
    ((monthly_capture_price e c).map Prod.fst =
      (e.map Prod.fst).filter (fun m => decide (m ∈ c.map Prod.fst))) ∧
    (∀ p ∈ monthly_capture_price e c,
      ∃ pe ∈ e, ∃ pc ∈ c, pe.1 = p.1 ∧ pc.1 = p.1 ∧ p.2 = capPriceVal pe.2 pc.2) ∧
    (∀ cv : Option ℚ, capPriceVal none cv = 0 ∧ capPriceVal (some 0) cv = 0) := by
  refine ⟨?_, ?_, ?_⟩
  · induction e with
    | nil => rfl
    | cons p e ih =>
      simp only [monthly_capture_price] at ih ⊢
      rw [List.filterMap_cons]
      cases hfind : c.find? (fun q => decide (q.1 = p.1)) with
      | some q =>
        have hq := List.find?_some hfind
        simp only [decide_eq_true_eq] at hq
        have hmem : p.1 ∈ c.map Prod.fst :=
          List.mem_map.mpr ⟨q, List.mem_of_find?_eq_some hfind, hq⟩
        simp only [Option.map_some', List.map_cons, List.filter_cons]
        rw [if_pos (by simpa using hmem), ih]
      | none =>
        have hmem : p.1 ∉ c.map Prod.fst := by
          rw [List.mem_map]
          rintro ⟨q, hqc, hqe⟩
          have hq := List.find?_eq_none.mp hfind q hqc
          simp [hqe] at hq
        simp only [Option.map_none', List.map_cons, List.filter_cons]
        rw [if_neg (by simpa using hmem), ih]
  · intro p hp
    simp only [monthly_capture_price, List.mem_filterMap] at hp
    obtain ⟨pe, hpe, hmap⟩ := hp
    rw [Option.map_eq_some'] at hmap
    obtain ⟨pc, hfind, hpceq⟩ := hmap
    have hpcmem := List.mem_of_find?_eq_some hfind
    have hpc1 := List.find?_some hfind
    simp only [decide_eq_true_eq] at hpc1
    cases hpceq
    exact ⟨pe, hpe, pc, hpcmem, rfl, hpc1, rfl⟩
  · intro cv
    exact ⟨rfl, by simp [capPriceVal]⟩

end CapturePrices
